import Mathlib

/-
Verification of GPUPolyaUrnLDA against its specification.

The development shallowly embeds the device code of the repository:
machine words are modelled as natural numbers with explicit reduction
modulo 2^32 or 2^64 where the hardware wraps, 32-bit floats appearing in
control conditions and column sums are modelled as rationals, and the
cooperative half-warp protocols of the hash table are modelled as the
sequential execution of one owning 16-lane group (each compare-and-swap
succeeds, since exactly one group owns a table at a time).  Fallible or
potentially non-terminating loops return Option, with explicit fuel.
-/

namespace GPULDA

/-! ## Packed hash-table entries (src/unnamed/part_001, lines 33-69)

An entry is one 64-bit word: the key in bits 32..63, the signed count in
bits 0..31.  `bfe`/`bfi` bit-field extract/insert become division and
remainder by 2^32.  `with_value v e` replaces the low 32 bits of `e` by
the low 32 bits of `v`, exactly as `bfi.b64` does; note that the *call
site* in `try_insert2` passes the arguments in the opposite order.
-/

def entryKey (e : ℕ) : ℕ := e / 2 ^ 32 % 2 ^ 32

def entryVal (e : ℕ) : ℕ := e % 2 ^ 32

def mkEntry (k v : ℕ) : ℕ := k % 2 ^ 32 * 2 ^ 32 + v % 2 ^ 32

def withValue (v e : ℕ) : ℕ := e / 2 ^ 32 % 2 ^ 32 * 2 ^ 32 + v % 2 ^ 32

def emptyEntry : ℕ := 0xffffffff * 2 ^ 32

/-- Reinterpret a `u32` bit pattern as a signed `i32` value. -/
def toSigned32 (v : ℕ) : ℤ := if v % 2 ^ 32 < 2 ^ 31 then (v % 2 ^ 32 : ℤ) else (v % 2 ^ 32 : ℤ) - 2 ^ 32

/-- `u32 + i32` addition (`value(thread_entry) + diff`), wrapping modulo 2^32. -/
def addU32 (v : ℕ) (d : ℤ) : ℕ := (((v : ℤ) + d) % 2 ^ 32).toNat

/-- The `u64 → i32 → u64` round trip performed by
`i32 half_warp_entry = __shfl(lane_entry, j, warpSize/2)` in `resize`:
truncation to the low 32 bits followed by sign extension back to 64 bits. -/
def truncI32 (e : ℕ) : ℕ := if e % 2 ^ 32 < 2 ^ 31 then e % 2 ^ 32 else 2 ^ 64 - 2 ^ 32 + e % 2 ^ 32

/-! ## The hash map state (src/unnamed/part_001, struct HashMap)

`data` is the storage array (length = `capacity`); out-of-range reads
default to the empty sentinel, and the bounds theorem for the spec's
safety claim shows in-range accesses are the only ones that occur.
-/

structure HashMap where
  capacity : ℕ
  data : List ℕ
  a : ℕ
  b : ℕ
  c : ℕ
  d : ℕ
  size : ℤ
  rebuild : Bool
deriving DecidableEq, Repr

def lineWidth : ℕ := 16

def maxNumLines : ℕ := 4

/-- `hash_slot` (part_001 line 96): `(((a*key + b) % 334214459) % (capacity/16)) * 16`,
with the `i32 * u32` product wrapping modulo 2^32. -/
def hashSlot (m : HashMap) (k : ℕ) : ℕ :=
  (m.a * k + m.b) % 2 ^ 32 % 334214459 % (m.capacity / lineWidth) * lineWidth

/-- `hash_stride` (part_001 line 100). -/
def hashStride (m : HashMap) (k : ℕ) : ℕ :=
  (m.c * k + m.d) % 2 ^ 32 % 334214459 % (m.capacity / lineWidth) * lineWidth

/-- `key_distance` (part_001 lines 104-114): first probe index `i < 3` whose
line contains `slot`, else `GPULDA_HASH_MAX_NUM_LINES = 4`. -/
def keyDistance (m : HashMap) (k slot : ℕ) : ℕ :=
  if (hashSlot m k + 0 * hashStride m k) % m.capacity = slot then 0
  else if (hashSlot m k + 1 * hashStride m k) % m.capacity = slot then 1
  else if (hashSlot m k + 2 * hashStride m k) % m.capacity = slot then 2
  else maxNumLines

/-- The base slot of probe line `i` for key `k`: `(initial_slot + i*stride) % capacity`. -/
def probeSlot (m : HashMap) (k i : ℕ) : ℕ :=
  (hashSlot m k + i * hashStride m k) % m.capacity

/-- The entry read by half-lane `h` is `data[slot + h]`. -/
def slotEntry (m : HashMap) (idx : ℕ) : ℕ := m.data.getD idx emptyEntry

/-! ## Cooperative lookup `get2` (part_001 lines 233-261)

The 16 half-lanes read one cache line, ballot on "key found", and
otherwise ballot on "empty slot or occupant closer to home than the
current probe distance".  `__ffs` of a ballot selects the lowest-indexed
voting lane, i.e. `List.find?` over `List.range 16`.
-/

def lineKeyFound (m : HashMap) (k slot : ℕ) : Option ℕ :=
  (List.range lineWidth).find? fun h => entryKey (slotEntry m (slot + h)) == k

def lineStop (m : HashMap) (slot i : ℕ) : Bool :=
  (List.range lineWidth).any fun h =>
    (slotEntry m (slot + h) == emptyEntry) || decide (keyDistance m (entryKey (slotEntry m (slot + h))) slot < i)

def get2From (m : HashMap) (k : ℕ) : List ℕ → ℕ
  | [] => 0
  | i :: rest =>
    match lineKeyFound m k (probeSlot m k i) with
    | some h => entryVal (slotEntry m (probeSlot m k i + h))
    | none => if lineStop m (probeSlot m k i) i then 0 else get2From m k rest

def get2 (m : HashMap) (k : ℕ) : ℕ := get2From m k [0, 1, 2, 3]

/-! ## Cooperative insert `try_insert2` (part_001 lines 266-334)

One loop iteration of the owning half-warp.  The three ballots are taken
in program order (key found / empty slot / Robin-Hood eviction), the
lowest voting lane performs the swap, and the sequential owner's CAS
always succeeds.  The model reproduces the source verbatim, including:
`with_value(thread_entry, value(thread_entry) + diff)` - whose argument
order is swapped relative to the declaration `with_value(value, entry)` -
and the eviction path, which shuffles `thread_new_entry` (the entry just
written) rather than the displaced occupant `thread_entry` into the
carried key and diff.
-/

structure InsLoop where
  m : HashMap
  key : ℕ
  diff : ℤ
  slot : ℕ
  stride : ℕ
  distance : ℕ

/-- `slot = (slot + stride) % capacity; distance += 1;` then raise the
rebuild flag and stop if `distance == GPULDA_HASH_MAX_NUM_LINES`. -/
def insAdvance (s : InsLoop) : InsLoop ⊕ HashMap :=
  let slot' := (s.slot + s.stride) % s.m.capacity
  let dist' := s.distance + 1
  if dist' = maxNumLines then Sum.inr { s.m with rebuild := true }
  else Sum.inl { s with slot := slot', distance := dist' }

def tryInsertStep (s : InsLoop) : InsLoop ⊕ HashMap :=
  match (List.range lineWidth).find? (fun h => entryKey (slotEntry s.m (s.slot + h)) == s.key) with
  | some h =>
    let te := slotEntry s.m (s.slot + h)
    Sum.inr { s.m with data := s.m.data.set (s.slot + h) (withValue te (addU32 (entryVal te) s.diff)) }
  | none =>
    match (List.range lineWidth).find? (fun h => slotEntry s.m (s.slot + h) == emptyEntry) with
    | some h =>
      Sum.inr { s.m with
        data := s.m.data.set (s.slot + h) (mkEntry s.key (max s.diff 0).toNat)
        size := s.m.size + 1 }
    | none =>
      match (List.range lineWidth).find?
          (fun h => decide (keyDistance s.m (entryKey (slotEntry s.m (s.slot + h))) s.slot < s.distance)) with
      | some h =>
        let newE := mkEntry s.key (max s.diff 0).toNat
        let m' := { s.m with data := s.m.data.set (s.slot + h) newE }
        insAdvance { m := m', key := entryKey newE, diff := toSigned32 (entryVal newE),
                     slot := s.slot, stride := hashStride m' (entryKey newE),
                     distance := keyDistance m' (entryKey newE) s.slot }
      | none => insAdvance s

def tryInsert2Go : ℕ → InsLoop → Option HashMap
  | 0, _ => none
  | fuel + 1, s =>
    match tryInsertStep s with
    | Sum.inr m => some m
    | Sum.inl s' => tryInsert2Go fuel s'

def tryInsert2 (fuel : ℕ) (m : HashMap) (key : ℕ) (diff : ℤ) : Option HashMap :=
  tryInsert2Go fuel
    { m := m, key := key, diff := diff, slot := hashSlot m key, stride := hashStride m key, distance := 0 }

/-! ## `allocate`, `init`, `resize`, `insert2` (part_001 lines 119-227, 340-354)

Allocation success, the random hash parameters drawn by `allocate`, and
the contents of freshly `malloc`ed (uninitialized) storage are supplied
as explicit oracles indexed by the allocation attempt.  The cooperative
group is modelled at `blockDim.x = 16` (one owning half-warp), so the
`+ blockDim.x` term of the growth formula is `+ 16` and the migration
loop walks the old storage 16 entries per chunk.
-/

def allocCapacity (x : ℕ) : ℕ := x / lineWidth * lineWidth

/-- `__float2uint_rz(capacity * GPULDA_HASH_GROWTH_RATE)` with growth rate 1.2f;
exact for the small capacities considered here. -/
def growCap (c : ℕ) : ℕ := c * 6 / 5

/-- `init` (lines 140-163) after a successful allocation: capacity rounded
down to a multiple of the 16-entry line, all slots set to the empty sentinel. -/
def initTable (cap a b c d : ℕ) : HashMap :=
  { capacity := allocCapacity cap, data := List.replicate (allocCapacity cap) emptyEntry,
    a := a, b := b, c := c, d := d, size := 0, rebuild := false }

/-- One old-storage entry moved by `resize` (lines 201-213): the `u64` entry is
truncated through `i32 half_warp_entry`, and out-of-range lanes contribute the
empty sentinel, which is also truncated and reinserted. -/
def migrateEntry (ifuel : ℕ) (oldData : List ℕ) (oldCap idx : ℕ) (m : HashMap) : Option HashMap :=
  let laneEntry := if idx < oldCap then oldData.getD idx emptyEntry else emptyEntry
  let hw := truncI32 laneEntry
  tryInsert2 ifuel m (entryKey hw) (toSigned32 (entryVal hw))

def migrate (ifuel : ℕ) (oldData : List ℕ) (oldCap : ℕ) (m : HashMap) : Option HashMap :=
  (List.range ((oldCap / lineWidth + 1) * lineWidth)).foldlM
    (fun m idx => migrateEntry ifuel oldData oldCap idx m) m

/-- The retry loop of `resize` (lines 187-220).  `ps n` gives the hash
parameters drawn by attempt `n`'s `allocate`, `allocOk n` whether its
`malloc` succeeds, `fresh n cap` the contents of the uninitialized new
storage.  Returns `(1, _)` on allocation failure, `(0, m)` on success,
`none` when the fuel is exhausted. -/
def resizeGo (ps : ℕ → ℕ × ℕ × ℕ × ℕ) (allocOk : ℕ → Bool) (fresh : ℕ → ℕ → List ℕ)
    (oldData : List ℕ) (oldCap : ℕ) (key : ℕ) (diff : ℤ) (ifuel : ℕ) :
    ℕ → ℕ → ℕ → Option (ℕ × HashMap)
  | 0, _, _ => none
  | rfuel + 1, attempt, curCap =>
    let newCap := allocCapacity (growCap curCap + 16)
    if allocOk attempt then
      let m1 : HashMap :=
        { capacity := newCap, data := fresh attempt newCap,
          a := (ps attempt).1, b := (ps attempt).2.1, c := (ps attempt).2.2.1, d := (ps attempt).2.2.2,
          size := 0, rebuild := false }
      match tryInsert2 ifuel m1 key diff with
      | none => none
      | some m2 =>
        match migrate ifuel oldData oldCap m2 with
        | none => none
        | some m3 =>
          if m3.rebuild then resizeGo ps allocOk fresh oldData oldCap key diff ifuel rfuel (attempt + 1) newCap
          else some (0, m3)
    else
      some (1, { capacity := newCap, data := [],
                 a := (ps attempt).1, b := (ps attempt).2.1, c := (ps attempt).2.2.1, d := (ps attempt).2.2.2,
                 size := 0, rebuild := false })

/-- `insert2` (lines 340-354): try the insertion when `diff != 0`, then resize
if the rebuild flag is up, propagating only the resize status. -/
def insert2 (ifuel rfuel : ℕ) (ps : ℕ → ℕ × ℕ × ℕ × ℕ) (allocOk : ℕ → Bool)
    (fresh : ℕ → ℕ → List ℕ) (m : HashMap) (key : ℕ) (diff : ℤ) : Option (ℕ × HashMap) :=
  match (if diff ≠ 0 then tryInsert2 ifuel m key diff else some m) with
  | none => none
  | some m1 =>
    if m1.rebuild then resizeGo ps allocOk fresh m1.data m1.capacity key diff ifuel rfuel 0 m1.capacity
    else some (0, m1)

def runOps (ifuel rfuel : ℕ) (ps : ℕ → ℕ × ℕ × ℕ × ℕ) (allocOk : ℕ → Bool)
    (fresh : ℕ → ℕ → List ℕ) : HashMap → List (ℕ × ℤ) → Option HashMap
  | m, [] => some m
  | m, (k, d) :: rest =>
    match insert2 ifuel rfuel ps allocOk fresh m k d with
    | none => none
    | some (_, m') => runOps ifuel rfuel ps allocOk fresh m' rest

/-- Sum of the live (non-empty) entries' signed counts. -/
def sumCounts (m : HashMap) : ℤ :=
  (m.data.map fun e => if e = emptyEntry then 0 else toSigned32 (entryVal e)).sum

def psTriv : ℕ → ℕ × ℕ × ℕ × ℕ := fun _ => (0, 0, 0, 0)

def okTriv : ℕ → Bool := fun _ => true

def freshTriv : ℕ → ℕ → List ℕ := fun _ cap => List.replicate cap emptyEntry

/-! ## The per-token draw of the mixture sampler (src/unnamed/part_000, lines 66-80)

The uniform variates and the 32-bit float weights are modelled as
rationals.  `compute_product_cumsum` is declared in a header that is not
part of the sources, so its grand total is modelled from the spec. -/

/-- Modelled from the spec: `compute_product_cumsum` (declared in the missing
header `topics.cuh`) returns `sigma_b`, the grand total of the cooperative
inclusive scan of `count(topic) * Phi[word, topic]` over every entry currently
present in the document's table; empty slots contribute nothing. -/
def sigmaB (m : HashMap) (phi : ℕ → ℚ) : ℚ :=
  (m.data.map fun e => if e = emptyEntry then 0 else (toSigned32 (entryVal e) : ℚ) * phi (entryKey e)).sum

/-- The branch of `sample_topics` lines 74-80: the exact (sparse) term is
taken iff `u1 * (sigma_a + sigma_b) > sigma_a`, in which case the topic comes
from the wary search over the scanned prefix sums; otherwise it comes from
the word's alias table.  The Boolean records which branch ran. -/
def drawTopic (u1 u2 sa sb : ℚ) (warySearch aliasTable : ℚ → ℕ) : Bool × ℕ :=
  if u1 * (sa + sb) > sa then (true, warySearch u2) else (false, aliasTable u2)

/-! ## `compute_d_idx` (src/unnamed/part_000, lines 5-33)

Block 0 walks the document lengths in chunks of `blockDim.x = B`; each
chunk is exclusively scanned (CUB `ExclusiveScan` with initial value 0),
the running block offset `initial_value` is added manually, and the result
is stored to the `u32` array `d_idx`.  All i32/u32 additions wrap modulo
2^32; since reduction modulo 2^32 commutes with addition, the model keeps
exact sums and reduces once at the store. -/

/-- `thread_d` of lane `s` in chunk `off`: `d_len[i]` when `i = off*B + s` is
in range, else 0. -/
def threadLen (dLen : List ℕ) (B off s : ℕ) : ℕ :=
  if off * B + s < dLen.length then dLen.getD (off * B + s) 0 else 0

/-- Exclusive-scan output of lane `t` within chunk `off`. -/
def chunkScan (dLen : List ℕ) (B off t : ℕ) : ℕ :=
  ∑ s ∈ Finset.range t, threadLen dLen B off s

/-- The writes of one chunk: lane `t` stores `initial_value + scan` into
`d_idx[off*B + t]` when in range. -/
def dIdxChunk (dLen : List ℕ) (B off iv : ℕ) (dIdx : List ℕ) : ℕ → List ℕ
  | 0 => dIdx
  | t + 1 =>
    let prev := dIdxChunk dLen B off iv dIdx t
    if off * B + t < dLen.length then prev.set (off * B + t) ((iv + chunkScan dLen B off t) % 2 ^ 32)
    else prev

/-- The outer loop over chunks, threading `initial_value`. -/
def dIdxGo (dLen : List ℕ) (B : ℕ) : ℕ → ℕ → ℕ → List ℕ → List ℕ
  | 0, _, _, dIdx => dIdx
  | rem + 1, off, iv, dIdx =>
    dIdxGo dLen B rem (off + 1) (iv + chunkScan dLen B off B) (dIdxChunk dLen B off iv dIdx B)

/-- `compute_d_idx`: `n_docs / blockDim.x + 1` chunks starting from offset 0,
`initial_value = 0`, into a `d_idx` buffer of `n_docs` slots.  The kernel
reads but never writes `d_len`, so the state it returns carries `d_len`
through unchanged. -/
def computeDIdx (B : ℕ) (dLen : List ℕ) : List ℕ × List ℕ :=
  (dLen, dIdxGo dLen B (dLen.length / B + 1) 0 0 (List.replicate dLen.length 0))

/-! ## `polya_urn_colsums` (src/src/cu/warpsample.cuh, lines 424-458)

The version invoked by `sample_phi` (src/unnamed/part_002, line 140).
Block `w` accumulates `thread_sum` over the rows `row = t + off*B < K` of
word `w`'s column of the transposed Phi, block-reduces, and stores
`sigma_a[w] = alpha * thread_sum`.  Float addition is modelled as exact
rational addition, so the thread/block split is a chunked double sum. -/

def coveredSum (f : ℕ → ℚ) (B K : ℕ) : ℚ :=
  ∑ off ∈ Finset.range (K / B + 1), ∑ t ∈ Finset.range B,
    (if off * B + t < K then f (off * B + t) else 0)

/-- The block-reduced `thread_sum` of block `w`: the chunked sum of
`Phi[row + K * w]` over `row < K`. -/
def colsumThreadTotal (Phi : ℕ → ℚ) (K B w : ℕ) : ℚ :=
  coveredSum (fun row => Phi (row + K * w)) B K

/-- The value stored into `sigma_a[w]` at line 447: `alpha * thread_sum`. -/
def sigmaAOut (Phi : ℕ → ℚ) (alpha : ℚ) (K B w : ℕ) : ℚ :=
  alpha * colsumThreadTotal Phi K B w

/-! ## `warp_queue_pair_push` (src/src/cu/poisson.cu, lines 13-49)

A group of `G` participating lanes (all active).  `conditional` is the
C int produced by the caller's comparison, so the two ballots are over
`conditional != 0` and `~conditional != 0`, where `~` is two's-complement
bitwise NOT, i.e. `~x = -x - 1`.  Lane 0 reserves blocks of both queues
by `atomicAdd`, and each lane writes its value at the block start plus
`warp_lane_offset` (the popcount of its ballot restricted to lower lanes).
Queues are recorded as lists of performed writes `(slot index, value)`. -/

def intNot (x : ℤ) : ℤ := -x - 1

/-- `warp_lane_offset`: number of lanes below `l` whose ballot bit is set. -/
def laneOffset (bits : ℕ → Bool) (l : ℕ) : ℕ :=
  ((List.range l).filter fun j => bits j).length

structure QueuePairState where
  q1 : List (ℕ × ℤ)
  q2 : List (ℕ × ℤ)
  q1End : ℕ
  q2End : ℕ
deriving DecidableEq, Repr

def warpQueuePairPush (G : ℕ) (value cond : ℕ → ℤ) (st : QueuePairState) : QueuePairState :=
  let q1bit : ℕ → Bool := fun l => decide (l < G) && decide (cond l ≠ 0)
  let q2bit : ℕ → Bool := fun l => decide (l < G) && decide (intNot (cond l) ≠ 0)
  let num1 := ((List.range G).filter fun l => q1bit l).length
  let num2 := ((List.range G).filter fun l => q2bit l).length
  let s1 := st.q1End
  let s2 := st.q2End
  let writes1 := ((List.range G).filter fun l => decide (cond l ≠ 0)).map
    fun l => (s1 + laneOffset q1bit l, value l)
  let writes2 := ((List.range G).filter fun l => decide (¬cond l ≠ 0)).map
    fun l => (s2 + laneOffset q2bit l, value l)
  { q1 := st.q1 ++ writes1, q2 := st.q2 ++ writes2, q1End := s1 + num1, q2End := s2 + num2 }

/-! ## Concrete states used by the failing-input evaluations -/

/-- A document table over a single cache line: topic 100 with count 2 and
topics 101..115 with count 1 each - 17 tokens in total. -/
def docTable : HashMap :=
  { capacity := 16,
    data := mkEntry 100 2 :: (List.range 15).map (fun t => mkEntry (101 + t) 1),
    a := 0, b := 0, c := 0, d := 0, size := 16, rebuild := false }

/-- An old table holding the single entry (key 5, count 3), with the
rebuild flag up. -/
def smallTable : HashMap :=
  { capacity := 16, data := mkEntry 5 3 :: List.replicate 15 emptyEntry,
    a := 0, b := 0, c := 0, d := 0, size := 1, rebuild := true }

/-- A two-line table satisfying the Robin-Hood displacement invariant:
key 1 ideally hashes to line base 16 (probe line 0), which is completely
full of other keys, and sits displaced at probe line 1 (base 0) with
count 5. -/
def rhTable : HashMap :=
  { capacity := 32,
    data := mkEntry 1 5 ::
      (List.replicate 15 emptyEntry ++ (List.range 16).map fun t => mkEntry (100 + t) 1),
    a := 1, b := 0, c := 1, d := 0, size := 17, rebuild := false }

/-! # Theorems -/

/-- Claim C1: refuted by evaluating the code.  Starting from an empty
table, the two accumulate operations `accumulate(5, +1); accumulate(5, +1)`
should leave `get(5) = 2` (the sum of the applied deltas) and no other
key.  Instead, the matched-key update `with_value(thread_entry,
value(thread_entry) + diff)` passes its arguments in the order opposite to
the declaration `with_value(value, entry)`, so the second operation
overwrites the slot with the 64-bit word `old count` (key field zero):
afterwards `get(5) = 0`, a spurious key 0 holds count 1, and no resize was
triggered.  The update is lost. -/
theorem C1_accumulate_loses_update :
    (runOps 40 40 psTriv okTriv freshTriv (initTable 16 0 0 0 0) [(5, 1), (5, 1)]).map
      (fun m => (get2 m 5, get2 m 0, m.rebuild)) = some (0, 1, false) := by
  decide

/-- Claim C3: refuted by evaluating the code.  Resizing a capacity-16
table that holds the single entry (key 5, count 3), with pending operation
(key 7, delta +1) and with every allocation succeeding and the fresh
storage even ideally cleared, must produce a table where `get(5) = 3`,
`get(7) = 1` and nothing else.  Instead the migration loop funnels each
64-bit old entry through `i32 half_warp_entry`, truncating it to its low
32 bits: the entry (5, 3) is reinserted as (0, 3), so after the
(status 0, capacity 32) resize `get(5) = 0` while the spurious key 0 maps
to 3; only the pending (7, +1) survives intact. -/
theorem C3_resize_drops_entries :
    (resizeGo psTriv okTriv freshTriv smallTable.data smallTable.capacity 7 1 40 5 0
        smallTable.capacity).map
      (fun r => (r.1, r.2.capacity, get2 r.2 5, get2 r.2 0, get2 r.2 7)) =
      some (0, 32, 0, 3, 1) := by
  decide

/-- Claim C4: refuted by evaluating the code.  `docTable` holds the topic
counts of a 17-token document (sum of live counts = 17).  One token's
remove/commit pair - `insert2(101, -1)` followed by `insert2(200, +1)` -
must restore the sum to 17.  Instead the remove writes the key-0 word
`old count` (the `with_value` argument swap), the commit's Robin-Hood
eviction drops the displaced entry (100, 2) while carrying forward the
entry it just wrote, and the sum after the pair is 16; neither the new
topic 200 nor the evicted topic 100 is retrievable. -/
theorem C4_conservation_violated :
    sumCounts docTable = 17 ∧
      (((insert2 40 40 psTriv okTriv freshTriv docTable 101 (-1)).bind
            (fun p => insert2 40 40 psTriv okTriv freshTriv p.2 200 1)).map
          (fun p => (p.1, sumCounts p.2, get2 p.2 200, get2 p.2 100))) =
        some (0, 16, 0, 0) := by
  refine ⟨by decide, by decide⟩

/-- Claim C9: refuted by evaluating the code.  In a two-lane group where
lane 0 holds value 10 with the predicate true and lane 1 holds value 20
with the predicate false, the claim requires the small queue's end counter
to advance by exactly one (the single small-queue write) and lane 1 to
write at offset 0 of the reserved block.  The code ballots the small queue
with `__ballot(~conditional)`, and the bitwise NOT of the 0/1 predicate
int is nonzero for every lane: the small queue's counter advances by 2 and
lane 1 writes at offset 1, leaving reserved slot 0 unwritten. -/
theorem C9_queue_push_miscounts :
    warpQueuePairPush 2 (fun l => if l = 0 then 10 else 20) (fun l => if l = 0 then 1 else 0)
        { q1 := [], q2 := [], q1End := 0, q2End := 0 } =
      { q1 := [(0, 10)], q2 := [(1, 20)], q1End := 1, q2End := 2 } := by
  decide

/-- Claim C10: every storage access of the probe loops is in bounds.  For
a table whose capacity is a positive multiple of the 16-entry cache line -
which `allocate` guarantees by rounding to a multiple of 16 - `hash_slot`
and `hash_stride` return multiples of 16 strictly below the capacity,
every probe line base `(hash_slot + i*stride) % capacity` stays a multiple
of 16 strictly below the capacity, and hence every access
`slot + half_lane_idx` with `half_lane_idx < 16` - in `get2`, in
`try_insert2`, and across the stride-advances of its insertion loop - is
strictly below the capacity. -/
theorem C10_probe_access_in_bounds (m : HashMap) (n : ℕ)
    (hcap : m.capacity = 16 * n) (hn : 1 ≤ n) :
    (∀ x, allocCapacity x % 16 = 0) ∧
    (∀ k, hashSlot m k % 16 = 0 ∧ hashSlot m k < m.capacity ∧
      hashStride m k % 16 = 0 ∧ hashStride m k < m.capacity) ∧
    (∀ k i h, h < 16 → probeSlot m k i % 16 = 0 ∧ probeSlot m k i + h < m.capacity) ∧
    (∀ k slot h, slot % 16 = 0 → slot < m.capacity → h < 16 →
      slot + h < m.capacity ∧ (slot + hashStride m k) % m.capacity % 16 = 0 ∧
        (slot + hashStride m k) % m.capacity < m.capacity) := by
  have hdiv : m.capacity / 16 = n := by
    rw [hcap]; exact Nat.mul_div_cancel_left n (by norm_num)
  have hpos : 0 < m.capacity := by omega
  have hslot : ∀ k, hashSlot m k % 16 = 0 ∧ hashSlot m k < m.capacity := by
    intro k
    unfold hashSlot lineWidth
    rw [hdiv]
    constructor
    · exact Nat.mul_mod_left _ 16
    · have : (m.a * k + m.b) % 2 ^ 32 % 334214459 % n < n := Nat.mod_lt _ (by omega)
      calc (m.a * k + m.b) % 2 ^ 32 % 334214459 % n * 16 < n * 16 := by omega
        _ = m.capacity := by omega
  have hstride : ∀ k, hashStride m k % 16 = 0 ∧ hashStride m k < m.capacity := by
    intro k
    unfold hashStride lineWidth
    rw [hdiv]
    constructor
    · exact Nat.mul_mod_left _ 16
    · have : (m.c * k + m.d) % 2 ^ 32 % 334214459 % n < n := Nat.mod_lt _ (by omega)
      calc (m.c * k + m.d) % 2 ^ 32 % 334214459 % n * 16 < n * 16 := by omega
        _ = m.capacity := by omega
  have hmod16 : ∀ x, x % 16 = 0 → x % m.capacity % 16 = 0 := by
    intro x hx
    obtain ⟨q, hq⟩ := Nat.dvd_of_mod_eq_zero hx
    subst hq
    rw [hcap, Nat.mul_mod_mul_left]
    exact Nat.mul_mod_right 16 _
  refine ⟨fun x => Nat.mul_mod_left _ 16, fun k => ⟨(hslot k).1, (hslot k).2, (hstride k).1, (hstride k).2⟩, ?_, ?_⟩
  · intro k i h hh
    have h0 : i * hashStride m k % 16 = 0 := by
      have hd : (16 : ℕ) ∣ i * hashStride m k :=
        Dvd.dvd.mul_left (Nat.dvd_of_mod_eq_zero (hstride k).1) i
      omega
    have h1 : (hashSlot m k + i * hashStride m k) % 16 = 0 := by
      have := (hslot k).1
      omega
    have h2 : probeSlot m k i % 16 = 0 := hmod16 _ h1
    have h3 : probeSlot m k i < m.capacity := Nat.mod_lt _ hpos
    exact ⟨h2, by omega⟩
  · intro k slot h hs hlt hh
    have h1 : (slot + hashStride m k) % 16 = 0 := by
      have := (hstride k).1
      omega
    have h2 : (slot + hashStride m k) % m.capacity % 16 = 0 := hmod16 _ h1
    have h3 : (slot + hashStride m k) % m.capacity < m.capacity := Nat.mod_lt _ hpos
    exact ⟨by omega, h2, h3⟩

/-- Witness for C10 at a freshly initialized capacity-16 table. -/
theorem C10_probe_access_in_bounds_witness :
    (initTable 16 0 0 0 0).capacity = 16 * 1 ∧
      probeSlot (initTable 16 0 0 0 0) 7 3 % 16 = 0 ∧
      probeSlot (initTable 16 0 0 0 0) 7 3 + 15 < (initTable 16 0 0 0 0).capacity :=
  ⟨by decide, (C10_probe_access_in_bounds (initTable 16 0 0 0 0) 1 (by decide) (by decide)).2.2.1
    7 3 15 (by decide)⟩

/-- Claim C5: the exact-term branch of the per-token draw is taken exactly
when `u1 * (sigma_a[word] + sigma_b) > sigma_a[word]`, and when the
document's table has zero live entries `sigma_b = 0`, so for every uniform
variate `u1` in (0, 1] and nonnegative `sigma_a` the inequality fails and
the draw always uses the word's alias table. -/
theorem C5_alias_branch_when_table_empty (m : HashMap) (phi : ℕ → ℚ) (u1 u2 sa : ℚ)
    (warySearch aliasTable : ℚ → ℕ)
    (hempty : ∀ e ∈ m.data, e = emptyEntry) (h0 : 0 < u1) (h1 : u1 ≤ 1) (hsa : 0 ≤ sa) :
    sigmaB m phi = 0 ∧
    (∀ sb : ℚ, (drawTopic u1 u2 sa sb warySearch aliasTable).1 = true ↔ u1 * (sa + sb) > sa) ∧
    (drawTopic u1 u2 sa (sigmaB m phi) warySearch aliasTable).1 = false := by
  have hzero : sigmaB m phi = 0 := by
    unfold sigmaB
    apply List.sum_eq_zero
    intro x hx
    obtain ⟨e, he, hex⟩ := List.mem_map.1 hx
    rw [← hex, hempty e he]
    simp
  have hbranch : ∀ sb : ℚ, (drawTopic u1 u2 sa sb warySearch aliasTable).1 = true ↔ u1 * (sa + sb) > sa := by
    intro sb
    unfold drawTopic
    split
    · next hgt => simpa using hgt
    · next hle => simpa using hle
  refine ⟨hzero, hbranch, ?_⟩
  have hfail : ¬ u1 * (sa + sigmaB m phi) > sa := by
    rw [hzero, add_zero]
    have : u1 * sa ≤ 1 * sa := mul_le_mul_of_nonneg_right h1 hsa
    simpa using this
  unfold drawTopic
  rw [if_neg hfail]

/-- Witness for C5 at an empty capacity-16 table with `u1 = 1`, `sigma_a = 2`. -/
theorem C5_alias_branch_when_table_empty_witness :
    sigmaB (initTable 16 0 0 0 0) (fun _ => 1) = 0 ∧
      (drawTopic 1 (1 / 2) 2 (sigmaB (initTable 16 0 0 0 0) (fun _ => 1))
        (fun _ => 0) (fun _ => 0)).1 = false :=
  ⟨(C5_alias_branch_when_table_empty (initTable 16 0 0 0 0) (fun _ => 1) 1 (1 / 2) 2
      (fun _ => 0) (fun _ => 0) (by decide) (by norm_num) (by norm_num) (by norm_num)).1,
   (C5_alias_branch_when_table_empty (initTable 16 0 0 0 0) (fun _ => 1) 1 (1 / 2) 2
      (fun _ => 0) (fun _ => 0) (by decide) (by norm_num) (by norm_num) (by norm_num)).2.2⟩

/-- The resize retry loop reports a nonzero status only when some
allocation attempt fails. -/
theorem resizeGo_status (ps : ℕ → ℕ × ℕ × ℕ × ℕ) (allocOk : ℕ → Bool) (fresh : ℕ → ℕ → List ℕ)
    (oldData : List ℕ) (oldCap : ℕ) (key : ℕ) (diff : ℤ) (ifuel : ℕ) :
    ∀ rfuel attempt curCap err m',
      resizeGo ps allocOk fresh oldData oldCap key diff ifuel rfuel attempt curCap = some (err, m') →
      err ≠ 0 → ∃ n, allocOk n = false := by
  intro rfuel
  induction rfuel with
  | zero =>
    intro attempt curCap err m' h
    simp [resizeGo] at h
  | succ rf ih =>
    intro attempt curCap err m' h hne
    simp only [resizeGo] at h
    split at h
    · split at h
      · exact absurd h (by simp)
      · split at h
        · exact absurd h (by simp)
        · split at h
          · exact ih _ _ _ _ h hne
          · simp only [Option.some.injEq, Prod.mk.injEq] at h
            exact absurd h.1.symm hne
    · next hok =>
      exact ⟨attempt, by simpa using hok⟩

/-- Claim C6: `insert2` (the accumulate entry point) reports a nonzero
status only when a storage allocation fails during the resize it
triggered; a probe chain exceeding the maximum number of lines only
raises the rebuild flag, and if every allocation succeeds the reported
status is 0. -/
theorem C6_error_only_on_alloc_failure (ps : ℕ → ℕ × ℕ × ℕ × ℕ) (allocOk : ℕ → Bool)
    (fresh : ℕ → ℕ → List ℕ) (ifuel rfuel : ℕ) (m : HashMap) (key : ℕ) (diff : ℤ) :
    (∀ err m', insert2 ifuel rfuel ps allocOk fresh m key diff = some (err, m') →
      err ≠ 0 → ∃ n, allocOk n = false) ∧
    (∀ err m', insert2 ifuel rfuel ps allocOk fresh m key diff = some (err, m') →
      (∀ n, allocOk n = true) → err = 0) := by
  have main : ∀ err m', insert2 ifuel rfuel ps allocOk fresh m key diff = some (err, m') →
      err ≠ 0 → ∃ n, allocOk n = false := by
    intro err m' h hne
    unfold insert2 at h
    split at h
    · exact absurd h (by simp)
    · split at h
      · exact resizeGo_status ps allocOk fresh _ _ key diff ifuel rfuel 0 _ err m' h hne
      · simp only [Option.some.injEq, Prod.mk.injEq] at h
        exact absurd h.1.symm hne
  refine ⟨main, fun err m' h hok => ?_⟩
  by_contra hne
  obtain ⟨n, hn⟩ := main err m' h hne
  rw [hok n] at hn
  exact Bool.noConfusion hn

/-- Witness for C6: a no-op accumulate on a fresh table, with every
allocation succeeding, reports status 0. -/
theorem C6_error_only_on_alloc_failure_witness :
    insert2 5 5 psTriv okTriv freshTriv (initTable 16 0 0 0 0) 3 0 =
      some (0, initTable 16 0 0 0 0) ∧ (0 : ℕ) = 0 :=
  ⟨by decide,
   (C6_error_only_on_alloc_failure psTriv okTriv freshTriv 5 5 (initTable 16 0 0 0 0) 3 0).2
     0 (initTable 16 0 0 0 0) (by decide) (fun _ => rfl)⟩

/-- A guarded sum over `range B` is a sum over the unguarded shorter range. -/
theorem sum_ite_range (g : ℕ → ℚ) (L : ℕ) :
    ∀ B, ∑ t ∈ Finset.range B, (if t < L then g t else 0) = ∑ t ∈ Finset.range (min L B), g t := by
  intro B
  induction B with
  | zero => simp
  | succ B ih =>
    rw [Finset.sum_range_succ, ih]
    by_cases hL : B < L
    · have h1 : min L B = B := by omega
      have h2 : min L (B + 1) = B + 1 := by omega
      rw [if_pos hL, h1, h2, Finset.sum_range_succ]
    · have h1 : min L B = L := by omega
      have h2 : min L (B + 1) = L := by omega
      rw [if_neg hL, h1, h2, add_zero]

/-- Partial chunk cover: `R` chunks of width `B` sum the first `min K (R*B)` terms. -/
theorem coveredSum_chunks (f : ℕ → ℚ) (B K : ℕ) :
    ∀ R, (∑ off ∈ Finset.range R, ∑ t ∈ Finset.range B,
        (if off * B + t < K then f (off * B + t) else 0)) =
      ∑ k ∈ Finset.range (min K (R * B)), f k := by
  intro R
  induction R with
  | zero => simp
  | succ R ih =>
    rw [Finset.sum_range_succ, ih]
    have hinner : (∑ t ∈ Finset.range B, (if R * B + t < K then f (R * B + t) else 0)) =
        ∑ t ∈ Finset.range (min (K - R * B) B), f (R * B + t) := by
      rw [← sum_ite_range (fun t => f (R * B + t)) (K - R * B) B]
      apply Finset.sum_congr rfl
      intro t _
      by_cases h : R * B + t < K
      · rw [if_pos h, if_pos (by omega)]
      · rw [if_neg h, if_neg (by omega)]
    rw [hinner]
    have hRB : (R + 1) * B = R * B + B := by ring
    by_cases hK : K ≤ R * B
    · have h1 : min K (R * B) = K := by omega
      have h2 : min (K - R * B) B = 0 := by omega
      have h3 : min K ((R + 1) * B) = K := by omega
      rw [h1, h2, h3]
      simp
    · have h1 : min K (R * B) = R * B := by omega
      have h3 : min K ((R + 1) * B) = R * B + min (K - R * B) B := by omega
      rw [h1, h3, Finset.sum_range_add]

/-- The chunked loop of `polya_urn_colsums` covers each of the `K` rows
exactly once. -/
theorem coveredSum_eq (f : ℕ → ℚ) (B K : ℕ) (hB : 1 ≤ B) :
    coveredSum f B K = ∑ k ∈ Finset.range K, f k := by
  unfold coveredSum
  rw [coveredSum_chunks f B K (K / B + 1)]
  have hdm := Nat.div_add_mod K B
  have hmod : K % B < B := Nat.mod_lt _ (by omega)
  have hmul : (K / B + 1) * B = B * (K / B) + B := by ring
  have : min K ((K / B + 1) * B) = K := by omega
  rw [this]

/-- Claim C8, counterexample: with `alpha = 2`, one topic and the
normalized row `Phi = [1]`, the value stored into `sigma_a[0]` by the
`polya_urn_colsums` kernel that `sample_phi` launches is `2`, not the
plain column sum `1` the claim states. -/
theorem C8_sigma_a_not_plain_colsum :
    ¬ sigmaAOut (fun _ => 1) 2 1 1 0 = ∑ k ∈ Finset.range 1, (1 : ℚ) := by
  have h : sigmaAOut (fun _ => 1) 2 1 1 0 = 2 := by
    unfold sigmaAOut colsumThreadTotal
    rw [coveredSum_eq _ _ _ (le_refl 1)]
    simp
  rw [h]
  simp

/-- Claim C8 as amended: after the Polya-urn refresh pass, for every
vocabulary word `w`, the kernel stores `sigma_a[w] = alpha *` (column sum
over all `K` topics of the refreshed row-normalized `Phi[., w]`), for any
block width `B ≥ 1`. -/
theorem C8_sigma_a_alpha_colsum (Phi : ℕ → ℚ) (alpha : ℚ) (K B w : ℕ) (hB : 1 ≤ B) :
    sigmaAOut Phi alpha K B w = alpha * ∑ k ∈ Finset.range K, Phi (k + K * w) := by
  unfold sigmaAOut colsumThreadTotal
  rw [coveredSum_eq _ _ _ hB]

/-- Witness for C8 with two topics, `alpha = 3`, block width 2. -/
theorem C8_sigma_a_alpha_colsum_witness :
    (1 : ℕ) ≤ 2 ∧ sigmaAOut (fun _ => 1) 3 2 2 0 = 3 * ∑ k ∈ Finset.range 2, (1 : ℚ) :=
  ⟨by norm_num, C8_sigma_a_alpha_colsum (fun _ => 1) 3 2 2 0 (by norm_num)⟩

/-- The guard of `thread_d` coincides with the defaulted list read. -/
theorem threadLen_eq_getD (dLen : List ℕ) (B off s : ℕ) :
    threadLen dLen B off s = dLen.getD (off * B + s) 0 := by
  unfold threadLen
  split
  · rfl
  · next h => exact (List.getD_eq_default _ _ (by omega)).symm

theorem chunkScan_eq (dLen : List ℕ) (B off t : ℕ) :
    chunkScan dLen B off t = ∑ s ∈ Finset.range t, dLen.getD (off * B + s) 0 := by
  unfold chunkScan
  exact Finset.sum_congr rfl fun s _ => threadLen_eq_getD dLen B off s

/-- A list's sum, written as a sum of defaulted reads over its index range. -/
theorem sum_getD_range (l : List ℕ) : ∑ j ∈ Finset.range l.length, l.getD j 0 = l.sum := by
  induction l with
  | nil => simp
  | cons a t ih =>
    rw [List.length_cons, Finset.sum_range_succ']
    simp only [List.getD_cons_succ, List.getD_cons_zero, ih, List.sum_cons]
    omega

/-- Every partial sum of defaulted reads is bounded by the list's sum. -/
theorem sumBelow_le (l : List ℕ) (i : ℕ) : ∑ j ∈ Finset.range i, l.getD j 0 ≤ l.sum := by
  rcases le_total i l.length with h | h
  · exact le_trans (Finset.sum_le_sum_of_subset (Finset.range_subset.2 h))
      (le_of_eq (sum_getD_range l))
  · have heq : ∑ j ∈ Finset.range l.length, l.getD j 0 = ∑ j ∈ Finset.range i, l.getD j 0 := by
      apply Finset.sum_subset (Finset.range_subset.2 h)
      intro x _ hx
      exact List.getD_eq_default _ _ (by simp at hx; omega)
    rw [← heq, sum_getD_range]

theorem dIdxChunk_length (dLen : List ℕ) (B off iv : ℕ) (dIdx : List ℕ) :
    ∀ t, (dIdxChunk dLen B off iv dIdx t).length = dIdx.length := by
  intro t
  induction t with
  | zero => rfl
  | succ t ih =>
    simp only [dIdxChunk]
    split
    · rw [List.length_set, ih]
    · exact ih

/-- Indices outside a chunk's write window are untouched by it. -/
theorem dIdxChunk_getD_outside (dLen : List ℕ) (B off iv : ℕ) (dIdx : List ℕ) :
    ∀ t i, (i < off * B ∨ off * B + t ≤ i) →
      (dIdxChunk dLen B off iv dIdx t).getD i 0 = dIdx.getD i 0 := by
  intro t
  induction t with
  | zero => intro i _; rfl
  | succ t ih =>
    intro i hi
    simp only [dIdxChunk]
    split
    · rw [List.getD_eq_getElem?_getD, List.getElem?_set_ne (by omega),
        ← List.getD_eq_getElem?_getD]
      exact ih i (by omega)
    · exact ih i (by omega)

/-- Lane `t0`'s write survives the rest of the chunk. -/
theorem dIdxChunk_getD_write (dLen : List ℕ) (B off iv : ℕ) (dIdx : List ℕ) :
    ∀ t t0, t0 < t → off * B + t0 < dLen.length → off * B + t0 < dIdx.length →
      (dIdxChunk dLen B off iv dIdx t).getD (off * B + t0) 0 =
        (iv + chunkScan dLen B off t0) % 2 ^ 32 := by
  intro t
  induction t with
  | zero => intro t0 h; omega
  | succ t ih =>
    intro t0 ht0 hn hlen
    simp only [dIdxChunk]
    by_cases heq : t0 = t
    · subst heq
      rw [if_pos (by omega)]
      rw [List.getD_eq_getElem?_getD, List.getElem?_set_self (by rw [dIdxChunk_length]; omega)]
      rfl
    · have hlt : t0 < t := by omega
      split
      · rw [List.getD_eq_getElem?_getD, List.getElem?_set_ne (by omega),
          ← List.getD_eq_getElem?_getD]
        exact ih t0 hlt hn hlen
      · exact ih t0 hlt hn hlen

/-- Invariant of the chunk loop of `compute_d_idx`: after processing all
remaining chunks, every in-range document index below the covered window
holds its exclusive prefix sum. -/
theorem dIdxGo_spec (dLen : List ℕ) (B : ℕ) (hB : 1 ≤ B) (hsum : dLen.sum < 2 ^ 32) :
    ∀ rem off iv dIdx,
      dIdx.length = dLen.length →
      iv = ∑ j ∈ Finset.range (off * B), dLen.getD j 0 →
      (∀ i, i < dLen.length → i < off * B →
        dIdx.getD i 0 = ∑ j ∈ Finset.range i, dLen.getD j 0) →
      dLen.length ≤ (off + rem) * B →
      ∀ i, i < dLen.length →
        (dIdxGo dLen B rem off iv dIdx).getD i 0 = ∑ j ∈ Finset.range i, dLen.getD j 0 := by
  intro rem
  induction rem with
  | zero =>
    intro off iv dIdx _ _ hinv hbound i hi
    have hz : (off + 0) * B = off * B := by ring
    rw [hz] at hbound
    exact hinv i hi (by omega)
  | succ rem ih =>
    intro off iv dIdx hlen hiv hinv hbound i hi
    simp only [dIdxGo]
    apply ih (off + 1) _ _
    · rw [dIdxChunk_length, hlen]
    · rw [hiv, chunkScan_eq]
      have hmul : (off + 1) * B = off * B + B := by ring
      rw [hmul, Finset.sum_range_add]
    · intro i' hi' hwin
      by_cases hlow : i' < off * B
      · rw [dIdxChunk_getD_outside dLen B off iv dIdx B i' (Or.inl hlow)]
        exact hinv i' hi' hlow
      · have hmul : (off + 1) * B = off * B + B := by ring
        have ht0 : i' = off * B + (i' - off * B) := by omega
        rw [ht0, dIdxChunk_getD_write dLen B off iv dIdx B (i' - off * B) (by omega)
          (by omega) (by omega)]
        rw [hiv, chunkScan_eq]
        have hshift : (∑ j ∈ Finset.range (off * B), dLen.getD j 0) +
            ∑ s ∈ Finset.range (i' - off * B), dLen.getD (off * B + s) 0 =
            ∑ j ∈ Finset.range (off * B + (i' - off * B)), dLen.getD j 0 :=
          (Finset.sum_range_add _ _ _).symm
        rw [hshift, ← ht0]
        exact Nat.mod_eq_of_lt (lt_of_le_of_lt (sumBelow_le dLen i') hsum)
    · have : off + 1 + rem = off + (rem + 1) := by omega
      rw [this]
      exact hbound
    · exact hi

/-- Claim C7: for every array of document lengths and every block width
`B ≥ 1`, `compute_d_idx` leaves `d_len` unchanged and writes into `d_idx`
the exclusive prefix sum of `d_len`: `d_idx[i]` is the sum of
`d_len[0] .. d_len[i-1]` (so `d_idx[0] = 0`), across every `B`-sized chunk
of the iteration; exact provided the total token count fits in a `u32`. -/
theorem C7_compute_d_idx_prefix_sum (B : ℕ) (dLen : List ℕ) (hB : 1 ≤ B)
    (hsum : dLen.sum < 2 ^ 32) :
    (computeDIdx B dLen).1 = dLen ∧
      ∀ i, i < dLen.length →
        (computeDIdx B dLen).2.getD i 0 = ∑ j ∈ Finset.range i, dLen.getD j 0 := by
  refine ⟨rfl, ?_⟩
  intro i hi
  unfold computeDIdx
  apply dIdxGo_spec dLen B hB hsum _ 0 0 _ (by simp) (by simp) (by omega) _ i hi
  have hdm := Nat.div_add_mod dLen.length B
  have hmod : dLen.length % B < B := Nat.mod_lt _ (by omega)
  have hmul : (0 + (dLen.length / B + 1)) * B = B * (dLen.length / B) + B := by ring
  omega

/-- Witness for C7 at `B = 2`, `d_len = [3, 4, 5]`. -/
theorem C7_compute_d_idx_prefix_sum_witness :
    (1 : ℕ) ≤ 2 ∧ [3, 4, 5].sum < 2 ^ 32 ∧
      (computeDIdx 2 [3, 4, 5]).2.getD 2 0 = ∑ j ∈ Finset.range 2, [3, 4, 5].getD j 0 :=
  ⟨by norm_num, by norm_num,
   (C7_compute_d_idx_prefix_sum 2 [3, 4, 5] (by norm_num) (by norm_num)).2 2 (by norm_num)⟩

theorem entryVal_empty : entryVal emptyEntry = 0 := by decide

theorem get2From_found (m : HashMap) (k i : ℕ) (rest : List ℕ) (h : ℕ)
    (hf : lineKeyFound m k (probeSlot m k i) = some h) :
    get2From m k (i :: rest) = entryVal (slotEntry m (probeSlot m k i + h)) := by
  simp only [get2From, hf]

theorem get2From_skip (m : HashMap) (k i : ℕ) (rest : List ℕ)
    (hf : lineKeyFound m k (probeSlot m k i) = none)
    (hs : lineStop m (probeSlot m k i) i = false) :
    get2From m k (i :: rest) = get2From m k rest := by
  simp only [get2From, hf, hs, Bool.false_eq_true, if_false]

/-- If no slot of the iterated probe lines holds the key, the lookup loop
returns 0 along every path - a found-ballot can then only fire on the
empty sentinel (whose count field is 0), and every other exit returns 0
directly. -/
theorem get2From_absent (m : HashMap) (k : ℕ) :
    ∀ is : List ℕ,
      (∀ i ∈ is, ∀ h < 16, slotEntry m (probeSlot m k i + h) ≠ emptyEntry →
        entryKey (slotEntry m (probeSlot m k i + h)) ≠ k) →
      get2From m k is = 0 := by
  intro is
  induction is with
  | nil => intro _; rfl
  | cons i rest ih =>
    intro habs
    cases hf : lineKeyFound m k (probeSlot m k i) with
    | some h =>
      rw [get2From_found m k i rest h hf]
      have hp := List.find?_some hf
      have hmem := List.mem_of_find?_eq_some hf
      rw [List.mem_range] at hmem
      rw [beq_iff_eq] at hp
      by_cases hemp : slotEntry m (probeSlot m k i + h) = emptyEntry
      · rw [hemp, entryVal_empty]
      · exact absurd hp (habs i (List.mem_cons_self i rest) h hmem hemp)
    | none =>
      by_cases hs : lineStop m (probeSlot m k i) i
      · simp only [get2From, hf, hs, if_true]
      · rw [get2From_skip m k i rest hf (by simpa using hs)]
        exact ih fun i' hi' => habs i' (List.mem_cons_of_mem i hi')

/-- Claim C2: cooperative lookup is correct.  First conjunct: when the key
is absent from every slot of its probe window, `get2` returns 0, whichever
of the three exits fires.  Second conjunct: when the key occupies a slot
of the probe window (line `j`, half-lane `h`), occurs nowhere else in the
window, and the Robin-Hood displacement invariant holds along the lines
before `j` - no empty slot and no occupant displaced strictly less than
the probe distance - then `get2` returns exactly the count stored with the
key, even though the scan may terminate at the first matching line. -/
theorem C2_get2_correct (m : HashMap) (k : ℕ) :
    ((∀ i < 4, ∀ h < 16, slotEntry m (probeSlot m k i + h) ≠ emptyEntry →
        entryKey (slotEntry m (probeSlot m k i + h)) ≠ k) → get2 m k = 0) ∧
    (∀ j < 4, ∀ h < 16,
      entryKey (slotEntry m (probeSlot m k j + h)) = k →
      slotEntry m (probeSlot m k j + h) ≠ emptyEntry →
      (∀ i < 4, ∀ h' < 16, entryKey (slotEntry m (probeSlot m k i + h')) = k →
        probeSlot m k i + h' = probeSlot m k j + h) →
      (∀ i < j, ∀ h' < 16,
        slotEntry m (probeSlot m k i + h') ≠ emptyEntry ∧
        i ≤ keyDistance m (entryKey (slotEntry m (probeSlot m k i + h'))) (probeSlot m k i)) →
      get2 m k = entryVal (slotEntry m (probeSlot m k j + h))) := by
  constructor
  · intro habs
    unfold get2
    apply get2From_absent
    intro i hi h hh hne
    have hi4 : i < 4 := by simp at hi; omega
    exact habs i hi4 h hh hne
  · intro j hj h hh hkey _ huniq hrh
    have hfound_val : ∀ i < 4, ∀ h₀, lineKeyFound m k (probeSlot m k i) = some h₀ →
        entryVal (slotEntry m (probeSlot m k i + h₀)) =
          entryVal (slotEntry m (probeSlot m k j + h)) := by
      intro i hi h₀ hf
      have hp := List.find?_some hf
      have hmem := List.mem_of_find?_eq_some hf
      rw [List.mem_range] at hmem
      rw [beq_iff_eq] at hp
      rw [huniq i hi h₀ hmem hp]
    have hnone_stop : ∀ i < j, lineStop m (probeSlot m k i) i = false := by
      intro i hij
      rw [Bool.eq_false_iff]
      intro hany
      rw [lineStop, List.any_eq_true] at hany
      obtain ⟨x, hx, hpred⟩ := hany
      rw [List.mem_range] at hx
      rw [Bool.or_eq_true] at hpred
      rcases hpred with hpred | hpred
      · rw [beq_iff_eq] at hpred
        exact absurd hpred (hrh i hij x hx).1
      · rw [decide_eq_true_eq] at hpred
        exact absurd hpred (not_lt.2 (hrh i hij x hx).2)
    have hj_found : lineKeyFound m k (probeSlot m k j) ≠ none := by
      intro hf
      rw [lineKeyFound, List.find?_eq_none] at hf
      have hfh := hf h (List.mem_range.2 hh)
      simp only [beq_iff_eq] at hfh
      exact hfh hkey
    unfold get2
    interval_cases j
    · cases hf0 : lineKeyFound m k (probeSlot m k 0) with
      | none => exact absurd hf0 hj_found
      | some h₀ =>
        rw [get2From_found m k 0 [1, 2, 3] h₀ hf0]
        exact hfound_val 0 (by norm_num) h₀ hf0
    · cases hf0 : lineKeyFound m k (probeSlot m k 0) with
      | some h₀ =>
        rw [get2From_found m k 0 [1, 2, 3] h₀ hf0]
        exact hfound_val 0 (by norm_num) h₀ hf0
      | none =>
        rw [get2From_skip m k 0 [1, 2, 3] hf0 (hnone_stop 0 (by norm_num))]
        cases hf1 : lineKeyFound m k (probeSlot m k 1) with
        | none => exact absurd hf1 hj_found
        | some h₁ =>
          rw [get2From_found m k 1 [2, 3] h₁ hf1]
          exact hfound_val 1 (by norm_num) h₁ hf1
    · cases hf0 : lineKeyFound m k (probeSlot m k 0) with
      | some h₀ =>
        rw [get2From_found m k 0 [1, 2, 3] h₀ hf0]
        exact hfound_val 0 (by norm_num) h₀ hf0
      | none =>
        rw [get2From_skip m k 0 [1, 2, 3] hf0 (hnone_stop 0 (by norm_num))]
        cases hf1 : lineKeyFound m k (probeSlot m k 1) with
        | some h₁ =>
          rw [get2From_found m k 1 [2, 3] h₁ hf1]
          exact hfound_val 1 (by norm_num) h₁ hf1
        | none =>
          rw [get2From_skip m k 1 [2, 3] hf1 (hnone_stop 1 (by norm_num))]
          cases hf2 : lineKeyFound m k (probeSlot m k 2) with
          | none => exact absurd hf2 hj_found
          | some h₂ =>
            rw [get2From_found m k 2 [3] h₂ hf2]
            exact hfound_val 2 (by norm_num) h₂ hf2
    · cases hf0 : lineKeyFound m k (probeSlot m k 0) with
      | some h₀ =>
        rw [get2From_found m k 0 [1, 2, 3] h₀ hf0]
        exact hfound_val 0 (by norm_num) h₀ hf0
      | none =>
        rw [get2From_skip m k 0 [1, 2, 3] hf0 (hnone_stop 0 (by norm_num))]
        cases hf1 : lineKeyFound m k (probeSlot m k 1) with
        | some h₁ =>
          rw [get2From_found m k 1 [2, 3] h₁ hf1]
          exact hfound_val 1 (by norm_num) h₁ hf1
        | none =>
          rw [get2From_skip m k 1 [2, 3] hf1 (hnone_stop 1 (by norm_num))]
          cases hf2 : lineKeyFound m k (probeSlot m k 2) with
          | some h₂ =>
            rw [get2From_found m k 2 [3] h₂ hf2]
            exact hfound_val 2 (by norm_num) h₂ hf2
          | none =>
            rw [get2From_skip m k 2 [3] hf2 (hnone_stop 2 (by norm_num))]
            cases hf3 : lineKeyFound m k (probeSlot m k 3) with
            | none => exact absurd hf3 hj_found
            | some h₃ =>
              rw [get2From_found m k 3 [] h₃ hf3]
              exact hfound_val 3 (by norm_num) h₃ hf3

/-- Witness for C2: in `rhTable`, key 1 is displaced to probe line 1 behind
a full line, and `get2` retrieves its stored count. -/
theorem C2_get2_correct_witness :
    entryKey (slotEntry rhTable (probeSlot rhTable 1 1 + 0)) = 1 ∧
      get2 rhTable 1 = entryVal (slotEntry rhTable (probeSlot rhTable 1 1 + 0)) :=
  ⟨by decide,
   (C2_get2_correct rhTable 1).2 1 (by decide) 0 (by decide) (by decide) (by decide)
     (by decide) (by decide)⟩

end GPULDA
